import Mathlib

/-!
# Mandelbrot renderer and series driver

A shallow embedding of `src/Mandel/threaded_mandel.c` (the threaded renderer) and of
`src/Mandel/mandelseries.c` (the driver that launches 50 renders), followed by theorems
about band partitioning, the escape-time loop, the colour mapping and the launch schedule.

Conventions of the embedding.

* C `int` values are `Int`.  The only place where a product can leave the 32-bit range is
  `255*i` in `iteration_to_color`; it is reduced with `wrap32`.  Every other integer
  expression that the theorems look at stays between 0 and its (in-range) inputs.
* C integer division `/` is `Int.tdiv` (truncation towards zero).  The division
  `image_height / numThreads` has no value when the divisor is zero, so the band height is an
  `Option`; the division by `max` in `iteration_to_color` is only looked at for `max ≥ 1`.
* `double` and `float` values are IEEE 754 binary64 and binary32 data (`Fp`): a finite
  number, an infinity or a NaN.  Every operation rounds its exact result once, to nearest
  with ties to even, into the type of the operation (`double` for `double` operands,
  `float` for `float` operands), with gradual underflow and overflow to infinity; no
  intermediate result is kept in a wider format and no multiplication is fused with an
  addition.  The sign of a zero is not kept.
* The threads of the renderer are run one after the other, in creation order.
-/

namespace Mandel

/-! ## IEEE 754 binary floating point -/

/-- Rounding of a rational to the nearest integer, a tie going to the even one. -/
def roundHalfEven (t : ℚ) : Int :=
  let n := ⌊t⌋
  let r := t - n
  if r < 1 / 2 then n else if 1 / 2 < r then n + 1 else if n % 2 = 0 then n else n + 1

/-- The parameters of a binary format: the number of significand bits and the least and
greatest exponents of a normal number. -/
structure Format where
  prec : Nat
  emin : Int
  emax : Int

/-- The format of `double`. -/
def binary64 : Format := { prec := 53, emin := -1022, emax := 1023 }

/-- The format of `float`. -/
def binary32 : Format := { prec := 24, emin := -126, emax := 127 }

/-- A floating-point datum: a finite number, an infinity or a NaN.  The two zeros are not
told apart. -/
inductive Fp where
  | fin (q : ℚ)
  | pinf
  | ninf
  | nan
deriving DecidableEq

/-- The number of halvings that bring `n` below 2, with at most `fuel` of them. -/
def halvings : Nat → Nat → Nat
  | 0, _ => 0
  | fuel + 1, n => if n < 2 then 0 else halvings fuel (n / 2) + 1

/-- The integer part of the binary logarithm of `n ≥ 1`. -/
def ilog2 (n : Nat) : Nat := halvings n n

/-- The exponent `e` with `2^e ≤ |q| < 2^(e+1)`, for `q ≠ 0`. -/
def binade (q : ℚ) : Int :=
  let e0 : Int := (ilog2 q.num.natAbs : Int) - (ilog2 q.den : Int)
  if (2 : ℚ) ^ e0 ≤ |q| then e0 else e0 - 1

/-- The spacing of the numbers of the format around `q`: one unit in the last of `prec`
bits, and the spacing of the subnormal numbers below the least normal exponent. -/
def quantum (f : Format) (q : ℚ) : ℚ :=
  (2 : ℚ) ^ (max (binade q) f.emin - ((f.prec : Int) - 1))

/-- The value `q` rounded to the nearest multiple of the spacing, ties to even, with no
bound on the exponent. -/
def roundFin (f : Format) (q : ℚ) : ℚ :=
  if q = 0 then 0 else (roundHalfEven (q / quantum f q) : ℚ) * quantum f q

/-- The greatest finite number of the format. -/
def maxFinite (f : Format) : ℚ :=
  ((2 : ℚ) ^ f.prec - 1) * (2 : ℚ) ^ (f.emax - ((f.prec : Int) - 1))

/-- Rounding to nearest, ties to even, of an exact result into the format: a rounded value
beyond the greatest finite number becomes an infinity. -/
def fpRound (f : Format) (q : ℚ) : Fp :=
  if maxFinite f < roundFin f q then Fp.pinf
  else if roundFin f q < -maxFinite f then Fp.ninf
  else Fp.fin (roundFin f q)

/-- Negation. -/
def Fp.neg : Fp → Fp
  | Fp.fin q => Fp.fin (-q)
  | Fp.pinf => Fp.ninf
  | Fp.ninf => Fp.pinf
  | Fp.nan => Fp.nan

/-- Addition in a format. -/
def Fp.add (f : Format) : Fp → Fp → Fp
  | Fp.fin a, Fp.fin b => fpRound f (a + b)
  | Fp.nan, _ => Fp.nan
  | _, Fp.nan => Fp.nan
  | Fp.pinf, Fp.ninf => Fp.nan
  | Fp.ninf, Fp.pinf => Fp.nan
  | Fp.pinf, _ => Fp.pinf
  | _, Fp.pinf => Fp.pinf
  | Fp.ninf, _ => Fp.ninf
  | _, Fp.ninf => Fp.ninf

/-- Subtraction in a format. -/
def Fp.sub (f : Format) (a b : Fp) : Fp := Fp.add f a (Fp.neg b)

/-- The infinity with the sign of `s`, and NaN for `s = 0`. -/
def Fp.signedInf (s : ℚ) : Fp :=
  if s = 0 then Fp.nan else if 0 < s then Fp.pinf else Fp.ninf

/-- Multiplication in a format. -/
def Fp.mul (f : Format) : Fp → Fp → Fp
  | Fp.fin a, Fp.fin b => fpRound f (a * b)
  | Fp.nan, _ => Fp.nan
  | _, Fp.nan => Fp.nan
  | Fp.fin a, Fp.pinf => Fp.signedInf a
  | Fp.fin a, Fp.ninf => Fp.signedInf (-a)
  | Fp.pinf, Fp.fin b => Fp.signedInf b
  | Fp.ninf, Fp.fin b => Fp.signedInf (-b)
  | Fp.pinf, Fp.pinf => Fp.pinf
  | Fp.ninf, Fp.ninf => Fp.pinf
  | Fp.pinf, Fp.ninf => Fp.ninf
  | Fp.ninf, Fp.pinf => Fp.ninf

/-- Division in a format.  A zero divisor is taken as `+0`: the divisors of the program are
converted `int` values. -/
def Fp.div (f : Format) : Fp → Fp → Fp
  | Fp.fin a, Fp.fin b => if b = 0 then Fp.signedInf a else fpRound f (a / b)
  | Fp.nan, _ => Fp.nan
  | _, Fp.nan => Fp.nan
  | Fp.fin _, _ => Fp.fin 0
  | Fp.pinf, Fp.fin b => if 0 ≤ b then Fp.pinf else Fp.ninf
  | Fp.ninf, Fp.fin b => if 0 ≤ b then Fp.ninf else Fp.pinf
  | _, _ => Fp.nan

/-- The comparison `a <= b` of C: false when an operand is a NaN. -/
def Fp.le : Fp → Fp → Bool
  | Fp.nan, _ => false
  | _, Fp.nan => false
  | Fp.fin a, Fp.fin b => decide (a ≤ b)
  | Fp.ninf, _ => true
  | _, Fp.pinf => true
  | _, _ => false

/-- The comparison `a > b` of C: false when an operand is a NaN. -/
def Fp.gt : Fp → Fp → Bool
  | Fp.nan, _ => false
  | _, Fp.nan => false
  | Fp.fin a, Fp.fin b => decide (b < a)
  | Fp.pinf, Fp.pinf => false
  | Fp.pinf, _ => true
  | Fp.ninf, Fp.ninf => false
  | _, Fp.ninf => true
  | _, _ => false

/-- The conversion of an `int` to `double`; it is exact, an `int` has 32 bits. -/
def ofInt (i : Int) : Fp := Fp.fin (i : ℚ)

/-- The conversion of a `double` to `float`. -/
def toFloat : Fp → Fp
  | Fp.fin q => fpRound binary32 q
  | x => x

/-- The `double` operation `a + b`. -/
def dadd (a b : Fp) : Fp := Fp.add binary64 a b

/-- The `double` operation `a - b`. -/
def dsub (a b : Fp) : Fp := Fp.sub binary64 a b

/-- The `double` operation `a * b`. -/
def dmul (a b : Fp) : Fp := Fp.mul binary64 a b

/-- The `double` operation `a / b`. -/
def ddiv (a b : Fp) : Fp := Fp.div binary64 a b

/-! ## Machine integers and colours -/

/-- Two's complement reduction of an integer to the 32-bit `int` range. -/
def wrap32 (z : Int) : Int := (z + 2147483648) % 4294967296 - 2147483648

/-- Modelled from the spec: the macro `MAKE_RGBA` of `bitmap.h`, which is not among the
sources.  The spec describes a colour as 8-bit red, green and blue channels with a fixed
alpha; the four channels are packed into one `int`, alpha in the top byte and blue in the
lowest one. -/
def MAKE_RGBA (r g b a : Int) : Int := a * 16777216 + r * 65536 + g * 256 + b

/-- The gray level `255*i/max` of `iteration_to_color`, in 32-bit `int` arithmetic, for a
divisor `max` other than zero. -/
def gray (i max : Int) : Int := Int.tdiv (wrap32 (255 * i)) max

/-- The function `iteration_to_color`: the gray level replicated over the three colour
channels, with alpha 0. -/
def iteration_to_color (i max : Int) : Int :=
  MAKE_RGBA (gray i max) (gray i max) (gray i max) 0

/-! ## Band partitioning in the renderer's `main` -/

/-- The two fields of `img_struct` that differ between workers: the row band `[start, end)`. -/
structure img_struct where
  start : Int
  end_ : Int
deriving DecidableEq

/-- The worker count used by `main`: the local `numThreads`, initialised to 1 and overwritten
by `atoi(optarg)` when the option `-n` is given (`none` stands for an absent option). -/
def numThreadsOf (n_option : Option Int) : Int :=
  match n_option with
  | none => 1
  | some n => n

/-- The statement `int height = image_height / numThreads;`.  It has no value when
`numThreads` is zero. -/
def bandHeight (image_height numThreads : Int) : Option Int :=
  if numThreads = 0 then none else some (Int.tdiv image_height numThreads)

/-- One pass through the body of the partition loop: the first band is `[0, height)`, every
later band starts at the end of the band before it. -/
def partitionStep (height : Int) (man_struct : List img_struct) : List img_struct :=
  match man_struct.getLast? with
  | none => man_struct ++ [{ start := 0, end_ := height }]
  | some prev => man_struct ++ [{ start := prev.end_, end_ := prev.end_ + height }]

/-- The partition loop `for (i = 0; i < numThreads; ++i)` after `count` passes. -/
def partitionLoop (height : Int) : Nat → List img_struct
  | 0 => []
  | count + 1 => partitionStep height (partitionLoop height count)

/-- The bands that `main` hands to its workers; `none` when the band height is undefined. -/
def mainBands (image_height numThreads : Int) : Option (List img_struct) :=
  match bandHeight image_height numThreads with
  | none => none
  | some height => some (partitionLoop height numThreads.toNat)

/-- The bands built for the value of the option `-n`. -/
def mainBandsOfOption (image_height : Int) (n_option : Option Int) : Option (List img_struct) :=
  mainBands image_height (numThreadsOf n_option)

/-! ## The escape-time loop -/

/-- The loop condition `x*x + y*y <= 4` as the code evaluates it, in `double`. -/
def inRadius (x y : Fp) : Bool := Fp.le (dadd (dmul x x) (dmul y y)) (ofInt 4)

/-- The `while` loop of `iterations_at_point`, started from the current values of `x`, `y` and
`iter`; its value is `iter` when the loop is left.  `x0`, `y0` are the saved coordinates.
The body computes `xt = x*x - y*y + x0` and `yt = 2*x*y + y0`. -/
def escape_loop (x0 y0 : Fp) (max : Int) (x y : Fp) (iter : Int) : Int :=
  if h : inRadius x y = true ∧ iter < max then
    escape_loop x0 y0 max (dadd (dsub (dmul x x) (dmul y y)) x0)
      (dadd (dmul (dmul (ofInt 2) x) y) y0) (iter + 1)
  else
    iter
termination_by (max - iter).toNat
decreasing_by omega

/-- The value of `iter` at the `return` of `iterations_at_point`. -/
def escape_iter (x y : Fp) (max : Int) : Int := escape_loop x y max x y 0

/-- The function `iterations_at_point`: the loop, then `return iteration_to_color(iter, max)`. -/
def iterations_at_point (x y : Fp) (max : Int) : Int :=
  iteration_to_color (escape_iter x y max) max

/-! ## The bitmap and the row-range renderer -/

/-- Modelled from the spec: `struct bitmap` of `bitmap.h`, which is not among the sources.
The spec calls it a 2D grid of pixel colour values of fixed width and height; `data x y` is
the colour of pixel `(x, y)`. -/
structure bitmap where
  width : Int
  height : Int
  data : Int → Int → Int

/-- Modelled from the spec: `bitmap_create` (absent from the sources) allocates a grid of the
given size. -/
def bitmap_create (w h : Int) : bitmap := { width := w, height := h, data := fun _ _ => 0 }

/-- Modelled from the spec: `bitmap_reset` (absent from the sources) fills every pixel with
one colour. -/
def bitmap_reset (bm : bitmap) (color : Int) : bitmap := { bm with data := fun _ _ => color }

/-- Modelled from the spec: `bitmap_set` (absent from the sources) writes a colour at pixel
`(x, y)` and leaves every other pixel as it was. -/
def bitmap_set (bm : bitmap) (x y color : Int) : bitmap :=
  { bm with data := fun x1 y1 => if x1 = x ∧ y1 = y then color else bm.data x1 y1 }

/-- The configuration values of the renderer's `main` that every worker receives. -/
structure job where
  xcenter : Fp
  ycenter : Fp
  scale : Fp
  image_width : Int
  image_height : Int
  max : Int

/-- The default configuration of `main`. -/
def defaultJob : job :=
  { xcenter := ofInt 0, ycenter := ofInt 0, scale := ofInt 4,
    image_width := 500, image_height := 500, max := 1000 }

/-- The assignment `double x = xmin + i*(xmax - xmin)/width`, where `main` has stored
`xmin = xcenter - scale` and `xmax = xcenter + scale`. -/
def pixel_x (jb : job) (width i : Int) : Fp :=
  dadd (dsub jb.xcenter jb.scale)
    (ddiv (dmul (ofInt i) (dsub (dadd jb.xcenter jb.scale) (dsub jb.xcenter jb.scale)))
      (ofInt width))

/-- The assignment `double y = ymin + j*(ymax - ymin)/height`, where `main` has stored
`ymin = ycenter - scale` and `ymax = ycenter + scale`. -/
def pixel_y (jb : job) (height j : Int) : Fp :=
  dadd (dsub jb.ycenter jb.scale)
    (ddiv (dmul (ofInt j) (dsub (dadd jb.ycenter jb.scale) (dsub jb.ycenter jb.scale)))
      (ofInt height))

/-- The row indices visited by `for (j = start; j < end; j++)`. -/
def bandRows (a : img_struct) : List Int :=
  (List.range (a.end_ - a.start).toNat).map (fun (k : Nat) => a.start + (k : Int))

/-- The column indices visited by `for (i = 0; i < width; i++)`. -/
def bandCols (width : Int) : List Int :=
  (List.range width.toNat).map (fun (k : Nat) => (k : Int))

/-- The calls `bitmap_set(bm, i, j, iters)` made by one run of `compute_image`, in order, as
triples `(i, j, iters)`. -/
def compute_image_calls (jb : job) (width height : Int) (a : img_struct) :
    List (Int × Int × Int) :=
  (bandRows a).flatMap fun j =>
    (bandCols width).map fun i =>
      (i, j, iterations_at_point (pixel_x jb width i) (pixel_y jb height j) jb.max)

/-- The function `compute_image`: the calls of the two nested loops applied to the bitmap. -/
def compute_image (jb : job) (bm : bitmap) (a : img_struct) : bitmap :=
  (compute_image_calls jb bm.width bm.height a).foldl
    (fun b c => bitmap_set b c.1 c.2.1 c.2.2) bm

/-- The colour `MAKE_RGBA(0,0,255,0)` with which `main` resets the bitmap. -/
def resetColor : Int := MAKE_RGBA 0 0 255 0

/-- The bitmap that `main` saves: created, reset, then painted by one worker per band.
`none` when the band height is undefined. -/
def render (jb : job) (numThreads : Int) : Option bitmap :=
  match mainBands jb.image_height numThreads with
  | none => none
  | some bands =>
    some (bands.foldl (compute_image jb)
      (bitmap_reset (bitmap_create jb.image_width jb.image_height) resetColor))

/-- Every `bitmap_set` call of a render, worker after worker, as pairs `(i, j)`. -/
def renderCalls (jb : job) (numThreads : Int) : Option (List (Int × Int)) :=
  match mainBands jb.image_height numThreads with
  | none => none
  | some bands =>
    some (bands.flatMap fun a =>
      (compute_image_calls jb jb.image_width jb.image_height a).map fun c => (c.1, c.2.1))

/-- The job of the end-to-end scenario: a 10 by 10 image of the square from -2 to 2 with
the cap 10. -/
def scenarioJob : job :=
  { xcenter := ofInt 0, ycenter := ofInt 0, scale := ofInt 2,
    image_width := 10, image_height := 10, max := 10 }

/-! ## The series driver -/

/-- What the driver does that is visible from outside: a child started on frame `frame` with
the argument `-s` equal to the text `s`, given by the number it denotes, or one call of
`wait`. -/
inductive Event where
  | launch (frame : Int) (s : Fp)
  | wait
deriving DecidableEq

/-- The driver's variables that change while it runs, and the events so far.  `sVal` is a
`float`. -/
structure SeriesState where
  sVal : Fp
  trace : List Event

/-- The initialiser `float sFactor = (sVal - 0.000015) / 49` with `sVal = 2`: the literal
`0.000015` is a `double`, the subtraction and the division are done in `double`, and the
quotient is converted to `float`. -/
def sFactor : Fp :=
  toFloat (ddiv (dsub (Fp.fin 2) (fpRound binary64 (15 / 1000000))) (ofInt 49))

/-- The number denoted by the text that `sprintf(s, "%f", v)` produces for a finite `v`: `v`
rounded to six decimals, to the nearest value, a tie going to the even digit.  An infinity
or a NaN is printed as such. -/
def fmt_f : Fp → Fp
  | Fp.fin v => Fp.fin ((roundHalfEven (v * 1000000) : ℚ) / 1000000)
  | x => x

/-- One pass through the body of the inner loop: the file name gets `i + j`, `s` is printed
from `sVal`, the child is forked and `sVal = sVal - sFactor` is done in `float`. -/
def forkStep (i : Int) (st : SeriesState) (j : Nat) : SeriesState :=
  { sVal := Fp.sub binary32 st.sVal sFactor
    trace := st.trace ++ [Event.launch (i + (j : Int)) (fmt_f st.sVal)] }

/-- The inner loop `for (j = 0; j < numProcess; j++)`. -/
def forkLoop (numProcess i : Int) (st : SeriesState) : SeriesState :=
  (List.range numProcess.toNat).foldl (forkStep i) st

/-- The loop `while (count != numProcess) { wait(&status); count++; }`; `none` when the
fuel runs out before the loop is left. -/
def waitLoop (numProcess : Int) : Nat → Int → SeriesState → Option SeriesState
  | 0, _, _ => none
  | fuel + 1, count, st =>
    if count ≠ numProcess then
      waitLoop numProcess fuel (count + 1) { st with trace := st.trace ++ [Event.wait] }
    else
      some st

/-- The outer loop `for (i = 0; i < 50; i += numProcess)`; `fuel` bounds its passes and
`waitFuel` those of each wait loop. -/
def seriesLoop (numProcess : Int) (waitFuel : Nat) : Nat → Int → SeriesState → Option SeriesState
  | 0, _, _ => none
  | fuel + 1, i, st =>
    if i < 50 then
      match waitLoop numProcess waitFuel 0 (forkLoop numProcess i st) with
      | none => none
      | some st1 => seriesLoop numProcess waitFuel fuel (i + numProcess) st1
    else
      some st

/-- The events of a run of the series driver with `argv[1]` read as `numProcess`; `sVal`
starts as the `float` 2. -/
def seriesMain (numProcess : Int) (fuel : Nat) : Option (List Event) :=
  (seriesLoop numProcess fuel fuel 0 { sVal := Fp.fin 2, trace := [] }).map (fun st => st.trace)

/-- The children started, in order, as pairs (frame index, scale). -/
def launches (tr : List Event) : List (Int × Fp) :=
  tr.filterMap fun e =>
    match e with
    | Event.launch frame s => some (frame, s)
    | Event.wait => none

/-- The frame indices of the children started, in order. -/
def launchedFrames (tr : List Event) : List Int :=
  tr.filterMap fun e =>
    match e with
    | Event.launch frame _ => some frame
    | Event.wait => none

/-- The sizes of the batches: the lengths of the runs of launches that are separated by
waits. -/
def batchSizes : List Event → List Nat
  | [] => []
  | Event.wait :: tr => batchSizes tr
  | Event.launch _ _ :: tr =>
    match tr, batchSizes tr with
    | Event.launch _ _ :: _, k :: ks => (k + 1) :: ks
    | _, ks => 1 :: ks

/-- The number of `wait` calls in a trace. -/
def waitCount (tr : List Event) : Nat := tr.count Event.wait

/-- The `float` value `v` after `m` executions of `sVal = sVal - sFactor`. -/
def decremented (v : Fp) : Nat → Fp
  | 0 => v
  | m + 1 => Fp.sub binary32 (decremented v m) sFactor

/-- The scale scheduled for frame `k`: what `"%f"` prints once `sVal` has been decremented
`k` times from 2. -/
def handedScale (k : Nat) : Fp := fmt_f (decremented (Fp.fin 2) k)

/-- The number carried by a finite datum, and 0 for the others. -/
def numOf : Fp → ℚ
  | Fp.fin q => q
  | _ => 0

/-- The scale scheduled for frame `k`, as a number. -/
def handedNumber (k : Nat) : ℚ := numOf (handedScale k)

/-- The `double` nearest to 1.2, `0x1.3333333333333p+0`. -/
def near1_2 : ℚ := 5404319552844595 / 4503599627370496

/-- The `double` nearest to 1.6, `0x1.999999999999ap+0`. -/
def near1_6 : ℚ := 3602879701896397 / 2251799813685248

/-! # Theorems -/

/-! ## Floating point: the rounding -/

/-- The integer chosen by `roundHalfEven` is within one half of its argument. -/
theorem roundHalfEven_near (t : ℚ) : |(roundHalfEven t : ℚ) - t| ≤ 1 / 2 := by
  have h1 : (⌊t⌋ : ℚ) ≤ t := Int.floor_le t
  have h2 : t < (⌊t⌋ : ℚ) + 1 := Int.lt_floor_add_one t
  unfold roundHalfEven
  simp only
  rw [abs_le]
  split_ifs with ha hb hc
  · constructor <;> linarith
  · push_cast
    constructor <;> linarith
  · have : t - (⌊t⌋ : ℚ) = 1 / 2 := le_antisymm (not_lt.1 hb) (not_lt.1 ha)
    constructor <;> linarith
  · have : t - (⌊t⌋ : ℚ) = 1 / 2 := le_antisymm (not_lt.1 hb) (not_lt.1 ha)
    push_cast
    constructor <;> linarith

theorem halvings_spec (fuel : Nat) :
    ∀ n : Nat, 1 ≤ n → n ≤ fuel → 2 ^ halvings fuel n ≤ n ∧ n < 2 ^ (halvings fuel n + 1) := by
  induction fuel with
  | zero =>
    intro n h1 h2
    omega
  | succ fuel ih =>
    intro n h1 h2
    rw [halvings]
    by_cases hn : n < 2
    · rw [if_pos hn]
      simp
      omega
    · rw [if_neg hn]
      obtain ⟨hlo, hhi⟩ := ih (n / 2) (by omega) (by omega)
      rw [pow_succ, pow_succ]
      rw [pow_succ] at hhi
      constructor <;> omega

theorem ilog2_spec (n : Nat) (h : 1 ≤ n) : 2 ^ ilog2 n ≤ n ∧ n < 2 ^ (ilog2 n + 1) :=
  halvings_spec n n h (le_refl n)

/-- The exponent found by `binade` is the binary exponent of `q`: `2^e ≤ |q| < 2^(e+1)`. -/
theorem binade_spec (q : ℚ) (hq : q ≠ 0) :
    (2 : ℚ) ^ binade q ≤ |q| ∧ |q| < (2 : ℚ) ^ (binade q + 1) := by
  have hN : 1 ≤ q.num.natAbs := Nat.pos_of_ne_zero (by simpa using hq)
  have hD : 1 ≤ q.den := q.den_pos
  obtain ⟨ha1, ha2⟩ := ilog2_spec q.num.natAbs hN
  obtain ⟨hb1, hb2⟩ := ilog2_spec q.den hD
  have habs : |q| = (q.num.natAbs : ℚ) / (q.den : ℚ) := by
    conv_lhs => rw [← Rat.num_div_den q]
    rw [abs_div, Nat.cast_natAbs, Int.cast_abs, abs_of_pos (by exact_mod_cast hD : (0 : ℚ) < q.den)]
  have hDpos : (0 : ℚ) < (q.den : ℚ) := by exact_mod_cast hD
  have qa1 : (2 : ℚ) ^ (ilog2 q.num.natAbs) ≤ (q.num.natAbs : ℚ) := by exact_mod_cast ha1
  have qa2 : (q.num.natAbs : ℚ) < (2 : ℚ) ^ (ilog2 q.num.natAbs + 1) := by exact_mod_cast ha2
  have qb1 : (2 : ℚ) ^ (ilog2 q.den) ≤ (q.den : ℚ) := by exact_mod_cast hb1
  have qb2 : (q.den : ℚ) < (2 : ℚ) ^ (ilog2 q.den + 1) := by exact_mod_cast hb2
  have h2 : (2 : ℚ) ≠ 0 := by norm_num
  have hpa : (0 : ℚ) < (2 : ℚ) ^ (ilog2 q.num.natAbs) := by positivity
  have hpb : (0 : ℚ) < (2 : ℚ) ^ (ilog2 q.den) := by positivity
  have hpb1 : (0 : ℚ) < (2 : ℚ) ^ (ilog2 q.den + 1) := by positivity
  have hup : |q| < (2 : ℚ) ^ ((ilog2 q.num.natAbs : Int) - (ilog2 q.den : Int) + 1) := by
    have e : (2 : ℚ) ^ ((ilog2 q.num.natAbs : Int) - (ilog2 q.den : Int) + 1) =
        (2 : ℚ) ^ (ilog2 q.num.natAbs + 1) / (2 : ℚ) ^ (ilog2 q.den) := by
      rw [show ((ilog2 q.num.natAbs : Int) - (ilog2 q.den : Int) + 1) =
        ((ilog2 q.num.natAbs + 1 : Nat) : Int) - ((ilog2 q.den : Nat) : Int) by push_cast; ring,
        zpow_sub₀ h2, zpow_natCast, zpow_natCast]
    rw [e, habs, div_lt_div_iff₀ hDpos hpb]
    calc (q.num.natAbs : ℚ) * (2 : ℚ) ^ (ilog2 q.den)
        ≤ (q.num.natAbs : ℚ) * (q.den : ℚ) := by
          apply mul_le_mul_of_nonneg_left qb1 (Nat.cast_nonneg _)
      _ < (2 : ℚ) ^ (ilog2 q.num.natAbs + 1) * (q.den : ℚ) := by
          apply mul_lt_mul_of_pos_right qa2 hDpos
  have hlo : (2 : ℚ) ^ ((ilog2 q.num.natAbs : Int) - (ilog2 q.den : Int) - 1) ≤ |q| := by
    have e : (2 : ℚ) ^ ((ilog2 q.num.natAbs : Int) - (ilog2 q.den : Int) - 1) =
        (2 : ℚ) ^ (ilog2 q.num.natAbs) / (2 : ℚ) ^ (ilog2 q.den + 1) := by
      rw [show ((ilog2 q.num.natAbs : Int) - (ilog2 q.den : Int) - 1) =
        ((ilog2 q.num.natAbs : Nat) : Int) - ((ilog2 q.den + 1 : Nat) : Int) by push_cast; ring,
        zpow_sub₀ h2, zpow_natCast, zpow_natCast]
    rw [e, habs, div_le_div_iff₀ hpb1 hDpos]
    calc (2 : ℚ) ^ (ilog2 q.num.natAbs) * (q.den : ℚ)
        ≤ (q.num.natAbs : ℚ) * (q.den : ℚ) := by
          apply mul_le_mul_of_nonneg_right qa1 (le_of_lt hDpos)
      _ ≤ (q.num.natAbs : ℚ) * (2 : ℚ) ^ (ilog2 q.den + 1) := by
          apply mul_le_mul_of_nonneg_left (le_of_lt qb2) (Nat.cast_nonneg _)
  unfold binade
  simp only
  split
  next h => exact ⟨h, hup⟩
  next h =>
    refine ⟨hlo, ?_⟩
    rw [sub_add_cancel]
    exact not_le.1 h

/-! ## Band partitioning: lemmas -/

theorem partitionLoop_eq (height : Int) (count : Nat) :
    partitionLoop height count =
      (List.range count).map
        (fun i => { start := (i : Int) * height, end_ := ((i : Int) + 1) * height }) := by
  induction count with
  | zero => rfl
  | succ k ih =>
    rw [partitionLoop, ih, List.range_succ, List.map_append]
    cases k with
    | zero => simp [partitionStep]
    | succ m =>
      simp [partitionStep, List.range_succ, List.getLast?_append]
      ring

theorem mainBands_eq (H N : Int) (hN : 1 ≤ N) :
    mainBands H N = some ((List.range N.toNat).map
      (fun i => { start := (i : Int) * Int.tdiv H N, end_ := ((i : Int) + 1) * Int.tdiv H N })) := by
  have h0 : N ≠ 0 := by omega
  simp [mainBands, bandHeight, h0, partitionLoop_eq]

theorem tdiv_bounds (H N : Int) (hH : 0 ≤ H) (hN : 1 ≤ N) :
    0 ≤ Int.tdiv H N ∧ N * Int.tdiv H N ≤ H := by
  have hN0 : 0 ≤ N := by omega
  rw [Int.tdiv_eq_ediv hH hN0]
  constructor
  · exact Int.ediv_nonneg hH hN0
  · exact Int.mul_ediv_self_le (by omega)

theorem mem_mainBands (H N : Int) (hN : 1 ≤ N) (bands : List img_struct)
    (hb : mainBands H N = some bands) (k : Nat) (a : img_struct) (ha : bands[k]? = some a) :
    (k : Int) < N ∧ a.start = (k : Int) * Int.tdiv H N ∧
      a.end_ = ((k : Int) + 1) * Int.tdiv H N := by
  rw [mainBands_eq H N hN] at hb
  cases hb
  rw [List.getElem?_map] at ha
  rcases hk : (List.range N.toNat)[k]? with _ | i
  · rw [hk] at ha; simp at ha
  · rw [hk] at ha
    have hik := List.getElem?_eq_some_iff.1 hk
    obtain ⟨hlt, hget⟩ := hik
    simp at hlt hget
    subst hget
    simp at ha
    subst ha
    refine ⟨by omega, rfl, rfl⟩

theorem band_bounds (H N : Int) (hH : 0 ≤ H) (hN : 1 ≤ N) (k : Nat) (hk : (k : Int) < N) :
    0 ≤ (k : Int) * Int.tdiv H N ∧ (k : Int) * Int.tdiv H N ≤ ((k : Int) + 1) * Int.tdiv H N ∧
      ((k : Int) + 1) * Int.tdiv H N ≤ H := by
  obtain ⟨h0, h1⟩ := tdiv_bounds H N hH hN
  have hk0 : (0 : Int) ≤ k := Int.ofNat_nonneg k
  refine ⟨Int.mul_nonneg hk0 h0, by nlinarith, ?_⟩
  have : ((k : Int) + 1) * Int.tdiv H N ≤ N * Int.tdiv H N :=
    Int.mul_le_mul_of_nonneg_right (by omega) h0
  omega

theorem mem_bandRows (a : img_struct) (j : Int) :
    j ∈ bandRows a ↔ a.start ≤ j ∧ j < a.end_ := by
  simp only [bandRows, List.mem_map, List.mem_range]
  constructor
  · rintro ⟨k, hk, rfl⟩
    have hk0 : (0 : Int) ≤ (k : Int) := Int.ofNat_nonneg k
    have hk1 : (k : Int) < a.end_ - a.start := by omega
    constructor <;> linarith
  · rintro ⟨h1, h2⟩
    refine ⟨(j - a.start).toNat, by omega, by omega⟩

theorem mem_bandCols (width i : Int) : i ∈ bandCols width ↔ 0 ≤ i ∧ i < width := by
  simp only [bandCols, List.mem_map, List.mem_range]
  constructor
  · rintro ⟨k, hk, rfl⟩
    have hk0 : (0 : Int) ≤ (k : Int) := Int.ofNat_nonneg k
    have hk1 : (k : Int) < width := by omega
    exact ⟨hk0, hk1⟩
  · rintro ⟨h1, h2⟩
    exact ⟨i.toNat, by omega, by omega⟩

theorem mem_compute_image_calls (jb : job) (width height : Int) (a : img_struct)
    (c : Int × Int × Int) :
    c ∈ compute_image_calls jb width height a ↔
      (0 ≤ c.1 ∧ c.1 < width) ∧ (a.start ≤ c.2.1 ∧ c.2.1 < a.end_) ∧
        c.2.2 = iterations_at_point (pixel_x jb width c.1) (pixel_y jb height c.2.1) jb.max := by
  obtain ⟨i, j, v⟩ := c
  simp only [compute_image_calls, List.mem_flatMap, List.mem_map, mem_bandRows, mem_bandCols,
    Prod.mk.injEq]
  constructor
  · rintro ⟨j1, hj, i1, hi, rfl, rfl, rfl⟩
    exact ⟨hi, hj, rfl⟩
  · rintro ⟨hi, hj, hv⟩
    exact ⟨j, hj, i, hi, rfl, rfl, hv.symm⟩

/-! ## Band partitioning: the claims -/

/-- C1, evaluated on the code: with the default height 500 and three workers the partition
loop builds three contiguous bands of 166 rows that start at row 0, but the last band ends at
row 498, not at the height 500: row 497 is visited by a worker, rows 498 and 499 by none. -/
theorem C1_last_band_stops_short :
    ∃ bands, mainBands 500 3 = some bands ∧
      bands = [⟨0, 166⟩, ⟨166, 332⟩, ⟨332, 498⟩] ∧ bands.length = 3 ∧
      bands.getLast?.map (fun a => a.end_) = some 498 ∧
      bands.getLast?.map (fun a => a.end_) ≠ some 500 ∧
      497 ∈ bands.flatMap bandRows ∧ 498 ∉ bands.flatMap bandRows ∧
      499 ∉ bands.flatMap bandRows := by
  refine ⟨[⟨0, 166⟩, ⟨166, 332⟩, ⟨332, 498⟩], by decide, rfl, by decide, by decide, by decide,
    ?_, ?_, ?_⟩ <;> simp [List.mem_flatMap, mem_bandRows]

/-- The shape of the bands for every height `H ≥ 0` and worker count `N ≥ 1`: there are `N`
of them, the first starts at 0, each starts where the one before it ends, and the last ends
at `N * (H / N)`, which is `H` exactly when `N` divides `H`. -/
theorem bands_shape (H N : Int) (hH : 0 ≤ H) (hN : 1 ≤ N) :
    ∃ bands, mainBands H N = some bands ∧ (bands.length : Int) = N ∧
      bands.head?.map (fun a => a.start) = some 0 ∧
      (∀ k a b, bands[k]? = some a → bands[k + 1]? = some b → b.start = a.end_) ∧
      bands.getLast?.map (fun a => a.end_) = some (N * Int.tdiv H N) ∧
      (N * Int.tdiv H N = H ↔ N ∣ H) := by
  have hmem := mem_mainBands H N hN _ (mainBands_eq H N hN)
  refine ⟨_, mainBands_eq H N hN, ?_, ?_, ?_, ?_, ?_⟩
  · simp
    omega
  · obtain ⟨m, hm⟩ : ∃ m, N.toNat = m + 1 := ⟨N.toNat - 1, by omega⟩
    rw [hm, List.range_succ_eq_map]
    simp
  · intro k a b ha hb
    obtain ⟨-, -, hae⟩ := hmem k a ha
    obtain ⟨-, hbs, -⟩ := hmem (k + 1) b hb
    rw [hae, hbs]
    push_cast
    ring
  · obtain ⟨m, hm⟩ : ∃ m, N.toNat = m + 1 := ⟨N.toNat - 1, by omega⟩
    rw [hm, List.range_succ, List.map_append]
    have hNm : N = (m : Int) + 1 := by omega
    simp [List.getLast?_append, hNm]
  · have hN0 : 0 ≤ N := by omega
    rw [Int.tdiv_eq_ediv hH hN0]
    constructor
    · intro h
      exact ⟨H / N, h.symm⟩
    · intro h
      exact Int.mul_ediv_cancel' h

/-- C10: for every height `H ≥ 0` and worker count `N ≥ 1` every band built by `main` has
`0 ≤ start ≤ end ≤ H`; hence every row index that a `compute_image` worker passes to
`bitmap_set` lies in `[0, H)`, and two different workers never pass the same row index. -/
theorem C10_bands_within_height (H N : Int) (hH : 0 ≤ H) (hN : 1 ≤ N) :
    ∃ bands, mainBands H N = some bands ∧
      (∀ a ∈ bands, 0 ≤ a.start ∧ a.start ≤ a.end_ ∧ a.end_ ≤ H) ∧
      (∀ (jb : job) (width : Int), ∀ a ∈ bands, ∀ c ∈ compute_image_calls jb width H a,
        0 ≤ c.2.1 ∧ c.2.1 < H) ∧
      (∀ (jb : job) (width : Int) (k l : Nat) (a b : img_struct),
        bands[k]? = some a → bands[l]? = some b → k ≠ l →
        ∀ c ∈ compute_image_calls jb width H a, ∀ d ∈ compute_image_calls jb width H b,
          c.2.1 ≠ d.2.1) := by
  have hmem := mem_mainBands H N hN _ (mainBands_eq H N hN)
  have hbnd : ∀ a ∈ (List.range N.toNat).map (fun (i : Nat) =>
      ({ start := (i : Int) * Int.tdiv H N, end_ := ((i : Int) + 1) * Int.tdiv H N } : img_struct)),
      0 ≤ a.start ∧ a.start ≤ a.end_ ∧ a.end_ ≤ H := by
    intro a ha
    obtain ⟨k, hk⟩ := List.getElem?_of_mem ha
    obtain ⟨hkN, hs, he⟩ := hmem k a hk
    rw [hs, he]
    exact band_bounds H N hH hN k hkN
  refine ⟨_, mainBands_eq H N hN, hbnd, ?_, ?_⟩
  · intro jb width a ha c hc
    obtain ⟨h0, h1, h2⟩ := hbnd a ha
    obtain ⟨-, ⟨hr1, hr2⟩, -⟩ := (mem_compute_image_calls jb width H a c).1 hc
    omega
  · intro jb width k l a b ha hb hkl c hc d hd
    obtain ⟨-, has, hae⟩ := hmem k a ha
    obtain ⟨-, hbs, hbe⟩ := hmem l b hb
    obtain ⟨-, ⟨hc1, hc2⟩, -⟩ := (mem_compute_image_calls jb width H a c).1 hc
    obtain ⟨-, ⟨hd1, hd2⟩, -⟩ := (mem_compute_image_calls jb width H b d).1 hd
    obtain ⟨hh0, -⟩ := tdiv_bounds H N hH hN
    intro heq
    rw [has] at hc1
    rw [hae] at hc2
    rw [hbs] at hd1
    rw [hbe] at hd2
    rw [heq] at hc1 hc2
    rcases Nat.lt_or_gt_of_ne hkl with h | h
    · have h1 : ((k : Int) + 1) ≤ (l : Int) := by omega
      have h2 : ((k : Int) + 1) * Int.tdiv H N ≤ (l : Int) * Int.tdiv H N :=
        Int.mul_le_mul_of_nonneg_right h1 hh0
      omega
    · have h1 : ((l : Int) + 1) ≤ (k : Int) := by omega
      have h2 : ((l : Int) + 1) * Int.tdiv H N ≤ (k : Int) * Int.tdiv H N :=
        Int.mul_le_mul_of_nonneg_right h1 hh0
      omega

/-- C10 at height 10 with 3 workers. -/
theorem C10_bands_within_height_witness :
    (0 : Int) ≤ 10 ∧ (1 : Int) ≤ 3 ∧
    ∃ bands, mainBands 10 3 = some bands ∧
      (∀ a ∈ bands, 0 ≤ a.start ∧ a.start ≤ a.end_ ∧ a.end_ ≤ 10) ∧
      (∀ (jb : job) (width : Int), ∀ a ∈ bands, ∀ c ∈ compute_image_calls jb width 10 a,
        0 ≤ c.2.1 ∧ c.2.1 < 10) ∧
      (∀ (jb : job) (width : Int) (k l : Nat) (a b : img_struct),
        bands[k]? = some a → bands[l]? = some b → k ≠ l →
        ∀ c ∈ compute_image_calls jb width 10 a, ∀ d ∈ compute_image_calls jb width 10 b,
          c.2.1 ≠ d.2.1) :=
  ⟨by decide, by decide, C10_bands_within_height 10 3 (by decide) (by decide)⟩

/-- C9 fails on the code: the value given with `-n` is used as it is.  With `-n 0` the worker
count is 0, the band height `image_height / numThreads` has no value and no band is built;
with `-n -1` the worker count is -1 and the list of bands is empty. -/
theorem C9_counterexample :
    numThreadsOf (some 0) = 0 ∧ ¬ (1 ≤ numThreadsOf (some 0)) ∧
      bandHeight 500 (numThreadsOf (some 0)) = none ∧ mainBandsOfOption 500 (some 0) = none ∧
      numThreadsOf (some (-1)) = -1 ∧ mainBandsOfOption 500 (some (-1)) = some [] := by
  decide

/-- C9 as amended: the worker count is the default 1 without `-n` and exactly the configured
value with it; whenever that value is at least 1 the band height is defined and as many
bands as workers, at least one, are built. -/
theorem C9_worker_count_as_configured (image_height : Int) (n_option : Option Int)
    (hn : ∀ n, n_option = some n → 1 ≤ n) :
    numThreadsOf none = 1 ∧ (∀ n, numThreadsOf (some n) = n) ∧
      1 ≤ numThreadsOf n_option ∧
      ∃ height bands, bandHeight image_height (numThreadsOf n_option) = some height ∧
        mainBandsOfOption image_height n_option = some bands ∧
        (bands.length : Int) = numThreadsOf n_option ∧ 1 ≤ bands.length := by
  have h1 : 1 ≤ numThreadsOf n_option := by
    cases n_option with
    | none => decide
    | some n => exact hn n rfl
  refine ⟨rfl, fun _ => rfl, h1, ?_⟩
  have h0 : numThreadsOf n_option ≠ 0 := by omega
  refine ⟨Int.tdiv image_height (numThreadsOf n_option), _, by simp [bandHeight, h0],
    mainBands_eq image_height _ h1, ?_, ?_⟩
  · simp
    omega
  · simp
    omega

/-- C9 as amended, at `-n 3` with height 500. -/
theorem C9_worker_count_as_configured_witness :
    (∀ n, some (3 : Int) = some n → 1 ≤ n) ∧
    (numThreadsOf none = 1 ∧ (∀ n, numThreadsOf (some n) = n) ∧
      1 ≤ numThreadsOf (some 3) ∧
      ∃ height bands, bandHeight 500 (numThreadsOf (some 3)) = some height ∧
        mainBandsOfOption 500 (some 3) = some bands ∧
        (bands.length : Int) = numThreadsOf (some 3) ∧ 1 ≤ bands.length) :=
  ⟨by intro n h; cases h; decide,
    C9_worker_count_as_configured 500 (some 3) (by intro n h; cases h; decide)⟩

/-! ## The colour mapping -/

theorem wrap32_of_range (z : Int) (h0 : 0 ≤ z) (h1 : z < 2147483648) : wrap32 z = z := by
  unfold wrap32
  omega

theorem gray_of_small (i max : Int) (h0 : 0 ≤ i) (h1 : i ≤ 8421504) :
    gray i max = Int.tdiv (255 * i) max := by
  unfold gray
  rw [wrap32_of_range (255 * i) (by omega) (by omega)]

/-- C7 fails on the code for large iteration caps: in 32-bit `int` arithmetic `255*i` wraps
around once `i` exceeds 8421504, so with `max = 8421505` the gray level of the full count is
-254 instead of 255, and it is below the gray level 254 of the count before it. -/
theorem C7_counterexample :
    gray 8421505 8421505 = -254 ∧ gray 8421505 8421505 ≠ 255 ∧
      gray 8421504 8421505 = 254 ∧ ¬ (gray 8421504 8421505 ≤ gray 8421505 8421505) := by
  decide

/-- C7 as amended: for every iteration cap `1 ≤ maxIter ≤ 8421504` (so that `255*i` stays
inside the `int` range) and all counts `0 ≤ a ≤ b ≤ maxIter`, the gray level of `a` is at most
that of `b`, and the gray level of `maxIter` is 255. -/
theorem C7_gray_monotone (maxIter a b : Int) (hmax : 1 ≤ maxIter) (hcap : maxIter ≤ 8421504)
    (ha : 0 ≤ a) (hab : a ≤ b) (hb : b ≤ maxIter) :
    gray a maxIter ≤ gray b maxIter ∧ gray maxIter maxIter = 255 := by
  have hm0 : 0 ≤ maxIter := by omega
  rw [gray_of_small a maxIter ha (by omega), gray_of_small b maxIter (by omega) (by omega),
    gray_of_small maxIter maxIter hm0 hcap]
  rw [Int.tdiv_eq_ediv (by omega) hm0, Int.tdiv_eq_ediv (by omega) hm0,
    Int.tdiv_eq_ediv (by omega) hm0]
  constructor
  · exact Int.ediv_le_ediv (by omega) (by omega)
  · exact Int.mul_ediv_cancel 255 (by omega)

/-- C7 as amended, at the cap 1000 with the counts 3 and 700. -/
theorem C7_gray_monotone_witness :
    (1 : Int) ≤ 1000 ∧ (1000 : Int) ≤ 8421504 ∧ (0 : Int) ≤ 3 ∧ (3 : Int) ≤ 700 ∧
      (700 : Int) ≤ 1000 ∧ gray 3 1000 ≤ gray 700 1000 ∧ gray 1000 1000 = 255 :=
  ⟨by decide, by decide, by decide, by decide, by decide,
    C7_gray_monotone 1000 3 700 (by decide) (by decide) (by decide) (by decide) (by decide)⟩

/-! ## The escape-time loop: lemmas and claims -/

theorem escape_loop_exit (x0 y0 : Fp) (max : Int) (x y : Fp) (iter : Int)
    (h : ¬ (inRadius x y = true ∧ iter < max)) : escape_loop x0 y0 max x y iter = iter := by
  rw [escape_loop]
  simp [h]

theorem escape_loop_step (x0 y0 : Fp) (max : Int) (x y : Fp) (iter : Int)
    (h : inRadius x y = true ∧ iter < max) :
    escape_loop x0 y0 max x y iter =
      escape_loop x0 y0 max (dadd (dsub (dmul x x) (dmul y y)) x0)
        (dadd (dmul (dmul (ofInt 2) x) y) y0) (iter + 1) := by
  rw [escape_loop]
  simp [h]

theorem iteration_to_color_zero (max : Int) : iteration_to_color 0 max = 0 := by
  simp [iteration_to_color, gray, wrap32, MAKE_RGBA]

/-- When `a > b` holds in C, `a <= b` does not. -/
theorem le_false_of_gt (a b : Fp) (h : Fp.gt a b = true) : Fp.le a b = false := by
  cases a <;> cases b <;> simp_all [Fp.gt, Fp.le]

theorem escape_iter_outside (x y : Fp) (max : Int) (hout : inRadius x y = false) :
    escape_iter x y max = 0 := by
  unfold escape_iter
  apply escape_loop_exit
  rintro ⟨hin, -⟩
  rw [hout] at hin
  exact absurd hin (by decide)

/-- C5 fails on the code when `x*x + y*y > 4` is read in exact arithmetic: at the doubles
nearest to 1.2 and 1.6 the exact sum of the squares is above 4, but the sum the code computes
is rounded to 4, the loop runs once, and with the cap 10 the function returns 1644825,
not 0. -/
theorem C5_counterexample :
    fpRound binary64 near1_2 = Fp.fin near1_2 ∧ fpRound binary64 near1_6 = Fp.fin near1_6 ∧
      near1_2 * near1_2 + near1_6 * near1_6 > 4 ∧
      dadd (dmul (Fp.fin near1_2) (Fp.fin near1_2)) (dmul (Fp.fin near1_6) (Fp.fin near1_6)) =
        Fp.fin 4 ∧
      escape_iter (Fp.fin near1_2) (Fp.fin near1_6) 10 = 1 ∧
      iterations_at_point (Fp.fin near1_2) (Fp.fin near1_6) 10 = 1644825 ∧
      iterations_at_point (Fp.fin near1_2) (Fp.fin near1_6) 10 ≠ 0 := by
  have hg0 : inRadius (Fp.fin near1_2) (Fp.fin near1_6) = true := by decide!
  have hg1 : inRadius
      (dadd (dsub (dmul (Fp.fin near1_2) (Fp.fin near1_2)) (dmul (Fp.fin near1_6) (Fp.fin near1_6)))
        (Fp.fin near1_2))
      (dadd (dmul (dmul (ofInt 2) (Fp.fin near1_2)) (Fp.fin near1_6)) (Fp.fin near1_6)) =
        false := by decide!
  have hiter : escape_iter (Fp.fin near1_2) (Fp.fin near1_6) 10 = 1 := by
    unfold escape_iter
    rw [escape_loop_step _ _ _ _ _ _ ⟨hg0, by decide⟩, escape_loop_exit]
    · rfl
    · rintro ⟨hin, -⟩
      rw [hg1] at hin
      exact absurd hin (by decide)
  have hret : iterations_at_point (Fp.fin near1_2) (Fp.fin near1_6) 10 = 1644825 := by
    rw [iterations_at_point, hiter]
    decide
  refine ⟨by decide!, by decide!, by decide!, by decide!, hiter, hret, ?_⟩
  rw [hret]
  decide

/-- C5 as amended: for every point for which `x*x + y*y > 4` holds as the code computes the
sum, in `double`, and every cap `max ≥ 1`, the loop of `iterations_at_point` is left with
`iter = 0` and the function returns 0. -/
theorem C5_outside_returns_zero (x y : Fp) (max : Int)
    (hout : Fp.gt (dadd (dmul x x) (dmul y y)) (ofInt 4) = true) (_hmax : 1 ≤ max) :
    escape_iter x y max = 0 ∧ iterations_at_point x y max = 0 := by
  have h : escape_iter x y max = 0 := escape_iter_outside x y max (le_false_of_gt _ _ hout)
  exact ⟨h, by rw [iterations_at_point, h, iteration_to_color_zero]⟩

/-- C5 as amended, at the point (-2, -2) with the cap 10. -/
theorem C5_outside_returns_zero_witness :
    Fp.gt (dadd (dmul (ofInt (-2)) (ofInt (-2))) (dmul (ofInt (-2)) (ofInt (-2)))) (ofInt 4) = true ∧
      (1 : Int) ≤ 10 ∧
      escape_iter (ofInt (-2)) (ofInt (-2)) 10 = 0 ∧
      iterations_at_point (ofInt (-2)) (ofInt (-2)) 10 = 0 :=
  ⟨by decide!, by decide, C5_outside_returns_zero (ofInt (-2)) (ofInt (-2)) 10 (by decide!) (by decide)⟩

/-- At the origin the loop body maps (0, 0) to (0, 0) and the loop condition holds, so the
loop runs until `iter` reaches the cap. -/
theorem escape_loop_origin (max : Int) (d : Nat) :
    ∀ iter : Int, iter ≤ max → max - iter = (d : Int) →
      escape_loop (ofInt 0) (ofInt 0) max (ofInt 0) (ofInt 0) iter = max := by
  have hx : dadd (dsub (dmul (ofInt 0) (ofInt 0)) (dmul (ofInt 0) (ofInt 0))) (ofInt 0) =
      ofInt 0 := by decide!
  have hy : dadd (dmul (dmul (ofInt 2) (ofInt 0)) (ofInt 0)) (ofInt 0) = ofInt 0 := by decide!
  have hg : inRadius (ofInt 0) (ofInt 0) = true := by decide!
  induction d with
  | zero =>
    intro iter h1 h2
    rw [escape_loop_exit]
    · simp at h2
      omega
    · rintro ⟨-, h⟩
      simp at h2
      omega
  | succ d ih =>
    intro iter h1 h2
    rw [escape_loop_step _ _ _ _ _ _ ⟨hg, by push_cast at h2; omega⟩, hx, hy]
    exact ih (iter + 1) (by push_cast at h2; omega) (by push_cast at h2; omega)

theorem escape_iter_origin : escape_iter (ofInt 0) (ofInt 0) 10 = 10 :=
  escape_loop_origin 10 10 0 (by decide) (by decide)

/-- C6, evaluated on the code: at the origin with the cap 10 the loop counts to 10, the
count the claim describes, but `iterations_at_point` returns `iteration_to_color(10, 10)`,
the packed white 16777215, which is neither 10 nor at most 10. -/
theorem C6_returns_colour_not_count :
    escape_iter (ofInt 0) (ofInt 0) 10 = 10 ∧
      iterations_at_point (ofInt 0) (ofInt 0) 10 = 16777215 ∧
      iterations_at_point (ofInt 0) (ofInt 0) 10 ≠ 10 ∧
      ¬ (iterations_at_point (ofInt 0) (ofInt 0) 10 ≤ 10) := by
  have h : iterations_at_point (ofInt 0) (ofInt 0) 10 = 16777215 := by
    rw [iterations_at_point, escape_iter_origin]
    decide
  refine ⟨escape_iter_origin, h, ?_, ?_⟩ <;> rw [h] <;> decide

/-- C8: in the 10 by 10 job over the square from -2 to 2 with the cap 10, the pixel-to-plane
mapping of `compute_image` sends pixel (5, 5) to the origin, where the loop reaches the full
count 10, and pixel (0, 0) to the corner (-2, -2), where the loop stops at a count of at
most 2 (it is 0). -/
theorem C8_scenario :
    pixel_x scenarioJob 10 5 = Fp.fin 0 ∧ pixel_y scenarioJob 10 5 = Fp.fin 0 ∧
      escape_iter (pixel_x scenarioJob 10 5) (pixel_y scenarioJob 10 5) scenarioJob.max = 10 ∧
      pixel_x scenarioJob 10 0 = Fp.fin (-2) ∧ pixel_y scenarioJob 10 0 = Fp.fin (-2) ∧
      escape_iter (pixel_x scenarioJob 10 0) (pixel_y scenarioJob 10 0) scenarioJob.max ≤ 2 := by
  have hx5 : pixel_x scenarioJob 10 5 = ofInt 0 := by decide!
  have hy5 : pixel_y scenarioJob 10 5 = ofInt 0 := by decide!
  have hx0 : pixel_x scenarioJob 10 0 = Fp.fin (-2) := by decide!
  have hy0 : pixel_y scenarioJob 10 0 = Fp.fin (-2) := by decide!
  have hm : scenarioJob.max = 10 := rfl
  refine ⟨by decide!, by decide!, ?_, hx0, hy0, ?_⟩
  · rw [hx5, hy5, hm]
    exact escape_iter_origin
  · rw [hx0, hy0, hm, escape_iter_outside _ _ _ (by decide!)]
    decide

/-- Pixel (8, 9) of the same job: the mapping rounds its abscissa to the `double` just above
1.2, its ordinate to the `double` nearest to 1.6, and the loop stops at the count 0. -/
theorem scenario_pixel_8_9 :
    pixel_x scenarioJob 10 8 = Fp.fin (5404319552844596 / 4503599627370496) ∧
      pixel_y scenarioJob 10 9 = Fp.fin near1_6 ∧
      escape_iter (pixel_x scenarioJob 10 8) (pixel_y scenarioJob 10 9) scenarioJob.max = 0 :=
  ⟨by decide!, by decide!, escape_iter_outside _ _ _ (by decide!)⟩

/-! ## The framebuffer after a render -/

theorem foldl_set_width (l : List (Int × Int × Int)) (bm : bitmap) :
    (l.foldl (fun b c => bitmap_set b c.1 c.2.1 c.2.2) bm).width = bm.width ∧
      (l.foldl (fun b c => bitmap_set b c.1 c.2.1 c.2.2) bm).height = bm.height := by
  induction l generalizing bm with
  | nil => exact ⟨rfl, rfl⟩
  | cons c t ih =>
    rw [List.foldl_cons]
    exact ih (bitmap_set bm c.1 c.2.1 c.2.2)

/-- A pixel that no call addresses keeps its colour. -/
theorem foldl_set_untouched (l : List (Int × Int × Int)) (bm : bitmap) (x y : Int)
    (h : ∀ c ∈ l, ¬ (c.1 = x ∧ c.2.1 = y)) :
    (l.foldl (fun b c => bitmap_set b c.1 c.2.1 c.2.2) bm).data x y = bm.data x y := by
  induction l generalizing bm with
  | nil => rfl
  | cons c t ih =>
    rw [List.foldl_cons, ih _ (fun d hd => h d (List.mem_cons_of_mem c hd))]
    have hc := h c (List.mem_cons_self c t)
    have hc1 : ¬ (x = c.1 ∧ y = c.2.1) := fun hxy => hc ⟨hxy.1.symm, hxy.2.symm⟩
    simp [bitmap_set, hc1]

/-- A pixel that some call addresses, all calls to it carrying the colour `v`, ends with the
colour `v`. -/
theorem foldl_set_touched (l : List (Int × Int × Int)) (bm : bitmap) (x y v : Int)
    (hv : ∀ c ∈ l, c.1 = x ∧ c.2.1 = y → c.2.2 = v)
    (hex : ∃ c ∈ l, c.1 = x ∧ c.2.1 = y) :
    (l.foldl (fun b c => bitmap_set b c.1 c.2.1 c.2.2) bm).data x y = v := by
  induction l generalizing bm with
  | nil =>
    obtain ⟨c, hc, -⟩ := hex
    exact absurd hc (List.not_mem_nil c)
  | cons c t ih =>
    rw [List.foldl_cons]
    by_cases ht : ∃ d ∈ t, d.1 = x ∧ d.2.1 = y
    · exact ih _ (fun d hd => hv d (List.mem_cons_of_mem c hd)) ht
    · have ht1 : ∀ d ∈ t, ¬ (d.1 = x ∧ d.2.1 = y) := fun d hd hxy => ht ⟨d, hd, hxy⟩
      rw [foldl_set_untouched t _ x y ht1]
      obtain ⟨d, hd, hxy⟩ := hex
      rcases List.mem_cons.1 hd with rfl | hd
      · have := hv d (List.mem_cons_self d t) hxy
        simp [bitmap_set, hxy.1, hxy.2, this]
      · exact absurd hxy (ht1 d hd)

/-- The bitmap after one run of `compute_image`: the pixels of the band inside the width
carry the colour of their point, every other pixel is as before. -/
theorem compute_image_data (jb : job) (bm : bitmap) (a : img_struct) (x y : Int) :
    (compute_image jb bm a).data x y =
      if (0 ≤ x ∧ x < bm.width) ∧ (a.start ≤ y ∧ y < a.end_) then
        iterations_at_point (pixel_x jb bm.width x) (pixel_y jb bm.height y) jb.max
      else bm.data x y := by
  unfold compute_image
  split
  next h =>
    apply foldl_set_touched
    · intro c hc hxy
      have := ((mem_compute_image_calls jb bm.width bm.height a c).1 hc).2.2
      rw [this, hxy.1, hxy.2]
    · exact ⟨(x, y, iterations_at_point (pixel_x jb bm.width x) (pixel_y jb bm.height y) jb.max),
        (mem_compute_image_calls jb bm.width bm.height a _).2 ⟨h.1, h.2, rfl⟩, rfl, rfl⟩
  next h =>
    apply foldl_set_untouched
    intro c hc hxy
    obtain ⟨h1, h2, -⟩ := (mem_compute_image_calls jb bm.width bm.height a c).1 hc
    rw [hxy.1] at h1
    rw [hxy.2] at h2
    exact h ⟨h1, h2⟩

theorem compute_image_size (jb : job) (bm : bitmap) (a : img_struct) :
    (compute_image jb bm a).width = bm.width ∧ (compute_image jb bm a).height = bm.height :=
  foldl_set_width _ bm

/-- The bitmap after the workers of a list of bands have run one after the other. -/
theorem foldl_compute_image (jb : job) (bands : List img_struct) (bm : bitmap) (x y : Int) :
    ((bands.foldl (compute_image jb) bm).width = bm.width ∧
      (bands.foldl (compute_image jb) bm).height = bm.height) ∧
    (bands.foldl (compute_image jb) bm).data x y =
      if (0 ≤ x ∧ x < bm.width) ∧ ∃ a ∈ bands, a.start ≤ y ∧ y < a.end_ then
        iterations_at_point (pixel_x jb bm.width x) (pixel_y jb bm.height y) jb.max
      else bm.data x y := by
  induction bands generalizing bm with
  | nil => simp
  | cons a t ih =>
    rw [List.foldl_cons]
    obtain ⟨⟨hw, hh⟩, hd⟩ := ih (compute_image jb bm a)
    obtain ⟨hw1, hh1⟩ := compute_image_size jb bm a
    refine ⟨⟨by rw [hw, hw1], by rw [hh, hh1]⟩, ?_⟩
    rw [hd, hw1, hh1, compute_image_data]
    by_cases hx : 0 ≤ x ∧ x < bm.width
    · by_cases ht : ∃ b ∈ t, b.start ≤ y ∧ y < b.end_
      · have h2 : ∃ b ∈ a :: t, b.start ≤ y ∧ y < b.end_ := by
          obtain ⟨b, hb, hby⟩ := ht
          exact ⟨b, List.mem_cons_of_mem a hb, hby⟩
        simp only [hx, ht, h2, and_self, if_true]
      · by_cases ha : a.start ≤ y ∧ y < a.end_
        · have h2 : ∃ b ∈ a :: t, b.start ≤ y ∧ y < b.end_ := ⟨a, List.mem_cons_self a t, ha⟩
          simp only [hx, ht, h2, ha, and_self, and_false, if_true, if_false]
        · have h2 : ¬ ∃ b ∈ a :: t, b.start ≤ y ∧ y < b.end_ := by
            rintro ⟨b, hb, hby⟩
            rcases List.mem_cons.1 hb with rfl | hb
            · exact ha hby
            · exact ht ⟨b, hb, hby⟩
          simp only [hx, ht, h2, ha, and_self, and_false, if_false]
    · simp only [hx, false_and, if_false]

/-- A row lies in some band exactly when it is below `N * (H / N)`. -/
theorem row_in_some_band (H N : Int) (hH : 0 ≤ H) (hN : 1 ≤ N) (bands : List img_struct)
    (hb : mainBands H N = some bands) (y : Int) :
    (∃ a ∈ bands, a.start ≤ y ∧ y < a.end_) ↔ 0 ≤ y ∧ y < N * Int.tdiv H N := by
  obtain ⟨hh0, -⟩ := tdiv_bounds H N hH hN
  constructor
  · rintro ⟨a, ha, h1, h2⟩
    obtain ⟨k, hk⟩ := List.getElem?_of_mem ha
    obtain ⟨hkN, hs, he⟩ := mem_mainBands H N hN bands hb k a hk
    rw [hs] at h1
    rw [he] at h2
    have hk0 : (0 : Int) ≤ (k : Int) * Int.tdiv H N :=
      Int.mul_nonneg (Int.ofNat_nonneg k) hh0
    have : ((k : Int) + 1) * Int.tdiv H N ≤ N * Int.tdiv H N :=
      Int.mul_le_mul_of_nonneg_right (by omega) hh0
    omega
  · rintro ⟨h0, h1⟩
    have hpos : 0 < Int.tdiv H N := by
      rcases lt_or_eq_of_le hh0 with h | h
      · exact h
      · rw [← h] at h1
        simp at h1
        omega
    have hq0 : 0 ≤ y / Int.tdiv H N := Int.ediv_nonneg h0 hh0
    have hqN : y / Int.tdiv H N < N := by
      apply Int.ediv_lt_of_lt_mul hpos
      exact h1
    have hlo : y / Int.tdiv H N * Int.tdiv H N ≤ y := Int.ediv_mul_le y (by omega)
    have hhi : y < (y / Int.tdiv H N + 1) * Int.tdiv H N := Int.lt_ediv_add_one_mul_self y hpos
    rw [mainBands_eq H N hN] at hb
    cases hb
    refine ⟨⟨y / Int.tdiv H N * Int.tdiv H N, (y / Int.tdiv H N + 1) * Int.tdiv H N⟩, ?_, hlo, hhi⟩
    rw [List.mem_map]
    refine ⟨(y / Int.tdiv H N).toNat, List.mem_range.2 (by omega), ?_⟩
    have : (((y / Int.tdiv H N).toNat : Nat) : Int) = y / Int.tdiv H N := Int.toNat_of_nonneg hq0
    rw [this]

/-- The saved bitmap, pixel by pixel, for every job with height `H ≥ 0` and every worker
count `N ≥ 1`: a pixel inside the width whose row is below `N * (H / N)` carries the colour of
its point, every other pixel still carries the reset colour. -/
theorem render_data (jb : job) (N : Int) (hH : 0 ≤ jb.image_height) (hN : 1 ≤ N) :
    ∃ bm, render jb N = some bm ∧ ∀ x y : Int,
      bm.data x y =
        if (0 ≤ x ∧ x < jb.image_width) ∧ (0 ≤ y ∧ y < N * Int.tdiv jb.image_height N) then
          iterations_at_point (pixel_x jb jb.image_width x) (pixel_y jb jb.image_height y) jb.max
        else resetColor := by
  have hb := mainBands_eq jb.image_height N hN
  refine ⟨_, by rw [render, hb], ?_⟩
  intro x y
  rw [(foldl_compute_image jb _ _ x y).2]
  have hrow := row_in_some_band jb.image_height N hH hN _ hb y
  simp only [hrow]
  rfl

/-! ## The framebuffer: the claim -/

/-- When the worker count divides the height, the saved bitmap is the same, pixel by pixel,
as with one worker. -/
theorem render_agrees_when_divisible (jb : job) (K : Int) (hH : 0 ≤ jb.image_height)
    (hK : 1 ≤ K) (hdiv : K ∣ jb.image_height) :
    ∃ b1 bK, render jb 1 = some b1 ∧ render jb K = some bK ∧ ∀ x y, bK.data x y = b1.data x y := by
  obtain ⟨b1, h1, d1⟩ := render_data jb 1 hH (le_refl 1)
  obtain ⟨bK, hK1, dK⟩ := render_data jb K hH hK
  refine ⟨b1, bK, h1, hK1, ?_⟩
  intro x y
  rw [d1, dK]
  have e1 : (1 : Int) * Int.tdiv jb.image_height 1 = jb.image_height := by simp
  have eK : K * Int.tdiv jb.image_height K = jb.image_height := by
    rw [Int.tdiv_eq_ediv hH (by omega)]
    exact Int.mul_ediv_cancel' hdiv
  rw [e1, eK]

theorem defaultJob_corner :
    iterations_at_point (pixel_x defaultJob 500 0) (pixel_y defaultJob 500 499) 1000 = 0 := by
  rw [iterations_at_point, escape_iter_outside _ _ _ (by decide!), iteration_to_color_zero]

/-- C2, evaluated on the code: for the default job (500 by 500) the render with 3 workers
and the render with 1 worker differ at pixel (0, 499).  With one worker the pixel gets the
colour of its point, 0; with three workers no call of `bitmap_set` addresses it and it keeps
the reset colour 255. -/
theorem C2_three_workers_leave_rows_unpainted :
    ∃ b1 b3 calls3, render defaultJob 1 = some b1 ∧ render defaultJob 3 = some b3 ∧
      renderCalls defaultJob 3 = some calls3 ∧
      b1.data 0 499 = 0 ∧ b3.data 0 499 = 255 ∧ b3.data 0 499 ≠ b1.data 0 499 ∧
      (0, 499) ∉ calls3 := by
  obtain ⟨b1, h1, d1⟩ := render_data defaultJob 1 (by decide) (by decide)
  obtain ⟨b3, h3, d3⟩ := render_data defaultJob 3 (by decide) (by decide)
  have hb : mainBands defaultJob.image_height 3 = some [⟨0, 166⟩, ⟨166, 332⟩, ⟨332, 498⟩] := by
    decide
  have e1 : b1.data 0 499 = 0 := by
    rw [d1, if_pos (by decide)]
    exact defaultJob_corner
  have e3 : b3.data 0 499 = 255 := by
    rw [d3, if_neg (by decide)]
    decide
  refine ⟨b1, b3, _, h1, h3, by rw [renderCalls, hb], e1, e3, by rw [e1, e3]; decide, ?_⟩
  intro hmem
  rw [List.mem_flatMap] at hmem
  obtain ⟨a, ha, hc⟩ := hmem
  rw [List.mem_map] at hc
  obtain ⟨c, hc, hxy⟩ := hc
  obtain ⟨-, ⟨-, h2⟩, -⟩ := (mem_compute_image_calls _ _ _ a c).1 hc
  have hy : c.2.1 = 499 := congrArg Prod.snd hxy
  rw [hy] at h2
  simp only [List.mem_cons, List.mem_singleton, List.not_mem_nil, or_false] at ha
  rcases ha with rfl | rfl | rfl <;> simp at h2

/-! ## The series driver: lemmas -/

theorem launches_append (tr1 tr2 : List Event) :
    launches (tr1 ++ tr2) = launches tr1 ++ launches tr2 := by
  simp [launches, List.filterMap_append]

theorem waitCount_append (tr1 tr2 : List Event) :
    waitCount (tr1 ++ tr2) = waitCount tr1 + waitCount tr2 := by
  simp [waitCount, List.count_append]

theorem decremented_add (v : Fp) (a b : Nat) :
    decremented (decremented v a) b = decremented v (a + b) := by
  induction b with
  | zero => rfl
  | succ b ih =>
    rw [← Nat.add_assoc]
    simp only [decremented, ih]

theorem forkLoop_eq (i : Int) (m : Nat) (st : SeriesState) :
    ((List.range m).foldl (forkStep i) st).sVal = decremented st.sVal m ∧
      ((List.range m).foldl (forkStep i) st).trace =
        st.trace ++ (List.range m).map
          (fun (j : Nat) => Event.launch (i + (j : Int)) (fmt_f (decremented st.sVal j))) := by
  induction m with
  | zero => simp [decremented]
  | succ m ih =>
    rw [List.range_succ, List.foldl_append, List.foldl_cons, List.foldl_nil]
    obtain ⟨h1, h2⟩ := ih
    constructor
    · simp only [forkStep, h1, decremented]
    · simp only [forkStep, h1, h2, List.map_append, List.map_cons, List.map_nil,
        List.append_assoc]

theorem waitLoop_eq (n : Int) (fuel : Nat) :
    ∀ (count : Int) (st : SeriesState), 0 ≤ count → count ≤ n → n - count < (fuel : Int) →
      waitLoop n fuel count st =
        some { st with trace := st.trace ++ List.replicate (n - count).toNat Event.wait } := by
  induction fuel with
  | zero =>
    intro count st h0 h1 h2
    simp at h2
    omega
  | succ fuel ih =>
    intro count st h0 h1 h2
    rw [waitLoop]
    by_cases hc : count = n
    · simp [hc]
    · rw [if_pos hc, ih (count + 1) _ (by omega) (by omega) (by push_cast at h2; omega)]
      have : (n - count).toNat = (n - (count + 1)).toNat + 1 := by omega
      rw [this, List.replicate_succ]
      simp

theorem launches_launchList (i : Int) (v : Fp) (m : Nat) :
    launches ((List.range m).map
      (fun (j : Nat) => Event.launch (i + (j : Int)) (fmt_f (decremented v j)))) =
      (List.range m).map (fun (j : Nat) => (i + (j : Int), fmt_f (decremented v j))) := by
  induction m with
  | zero => rfl
  | succ m ih =>
    rw [List.range_succ, List.map_append, launches_append, ih, List.map_append]
    rfl

theorem launches_replicate_wait (m : Nat) : launches (List.replicate m Event.wait) = [] := by
  induction m with
  | zero => rfl
  | succ m ih =>
    rw [List.replicate_succ]
    simp [launches]

theorem waitCount_launchList (f : Nat → Event) (hf : ∀ j, f j ≠ Event.wait) (m : Nat) :
    waitCount ((List.range m).map f) = 0 := by
  rw [waitCount, List.count_eq_zero]
  intro h
  obtain ⟨j, -, hj⟩ := List.mem_map.1 h
  exact hf j hj

theorem waitCount_replicate_wait (m : Nat) : waitCount (List.replicate m Event.wait) = m := by
  simp [waitCount]

/-- One pass of the outer loop: `n` launches of the frames `m, ..., m + n - 1`, then `n`
waits. -/
theorem batch_eq (n : Nat) (waitFuel : Nat) (hw : n < waitFuel) (m : Nat) (st : SeriesState) :
    waitLoop (n : Int) waitFuel 0 (forkLoop (n : Int) (m : Int) st) =
      some { sVal := decremented st.sVal n
             trace := st.trace ++ (List.range n).map
                 (fun (j : Nat) =>
                   Event.launch ((m : Int) + (j : Int)) (fmt_f (decremented st.sVal j))) ++
               List.replicate n Event.wait } := by
  rw [waitLoop_eq (n : Int) waitFuel 0 _ (le_refl 0) (by omega) (by omega)]
  obtain ⟨h1, h2⟩ := forkLoop_eq (m : Int) n st
  simp only [forkLoop, Int.toNat_ofNat, h1, h2, sub_zero]

/-- The outer loop from the head of a pass with `i = m`, where the frames `0, ..., m - 1`
have been launched with the scheduled scales: it ends, at some `M ≥ 50`, with the frames
`0, ..., M - 1` launched. -/
theorem seriesLoop_eq (n : Nat) (waitFuel : Nat) (hw : n < waitFuel) (f : Nat) :
    ∀ (m : Nat) (st : SeriesState), 50 ≤ m + f * n →
      st.sVal = decremented (Fp.fin 2) m →
      launches st.trace = (List.range m).map (fun (k : Nat) => ((k : Int), handedScale k)) →
      waitCount st.trace = m →
      ∃ (st1 : SeriesState) (M : Nat),
        seriesLoop (n : Int) waitFuel (f + 1) (m : Int) st = some st1 ∧
        ((50 ≤ m ∧ M = m) ∨ (m < 50 ∧ 50 ≤ M ∧ M < 50 + n ∧ ∃ t, M = m + t * n)) ∧
        launches st1.trace = (List.range M).map (fun (k : Nat) => ((k : Int), handedScale k)) ∧
        waitCount st1.trace = M := by
  induction f with
  | zero =>
    intro m st hfuel hs hl hwc
    have hm1 : ¬ (m : Int) < 50 := by omega
    rw [seriesLoop, if_neg hm1]
    exact ⟨st, m, rfl, Or.inl ⟨by omega, rfl⟩, hl, hwc⟩
  | succ f ih =>
    intro m st hfuel hs hl hwc
    rw [seriesLoop]
    by_cases hm : m < 50
    · have hm1 : (m : Int) < 50 := by omega
      rw [if_pos hm1, batch_eq n waitFuel hw m st]
      have hcast : (m : Int) + (n : Int) = ((m + n : Nat) : Int) := by push_cast; rfl
      simp only [hcast]
      have hfuel1 : 50 ≤ (m + n) + f * n := by
        have : (f + 1) * n = f * n + n := Nat.succ_mul f n
        omega
      have hs2 : decremented st.sVal n = decremented (Fp.fin 2) (m + n) := by
        rw [hs, decremented_add]
      have hl2 : launches (st.trace ++ (List.range n).map
          (fun (j : Nat) =>
            Event.launch ((m : Int) + (j : Int)) (fmt_f (decremented st.sVal j))) ++
          List.replicate n Event.wait) =
          (List.range (m + n)).map (fun (k : Nat) => ((k : Int), handedScale k)) := by
        rw [launches_append, launches_append, launches_launchList, launches_replicate_wait, hl,
          hs, List.append_nil, List.range_add, List.map_append, List.map_map]
        congr 1
        apply List.map_congr_left
        intro j _
        simp only [Function.comp, handedScale, decremented_add]
        push_cast
        rfl
      have hw2 : waitCount (st.trace ++ (List.range n).map
          (fun (j : Nat) =>
            Event.launch ((m : Int) + (j : Int)) (fmt_f (decremented st.sVal j))) ++
          List.replicate n Event.wait) = m + n := by
        rw [waitCount_append, waitCount_append, waitCount_replicate_wait, hwc,
          waitCount_launchList _ (fun j => by simp)]
        rfl
      obtain ⟨st1, M, hrun, hM, hl1, hw1⟩ := ih (m + n)
        { sVal := decremented st.sVal n
          trace := st.trace ++ (List.range n).map
              (fun (j : Nat) =>
                Event.launch ((m : Int) + (j : Int)) (fmt_f (decremented st.sVal j))) ++
            List.replicate n Event.wait } hfuel1 hs2 hl2 hw2
      refine ⟨st1, M, hrun, Or.inr ⟨hm, ?_⟩, hl1, hw1⟩
      rcases hM with ⟨h50, hMeq⟩ | ⟨hlt, h50, hub, t, ht⟩
      · refine ⟨by omega, by omega, 1, by omega⟩
      · refine ⟨h50, hub, t + 1, ?_⟩
        rw [ht, Nat.succ_mul]
        omega
    · have hm1 : ¬ (m : Int) < 50 := by omega
      rw [if_neg hm1]
      exact ⟨st, m, rfl, Or.inl ⟨by omega, rfl⟩, hl, hwc⟩

/-- A run of the series driver with `numProcess ≥ 1` and enough fuel ends; it launches the
frames `0, ..., M - 1`, frame `k` with the scale `handedScale k`, and waits `M` times, where
`M` is the first multiple of `numProcess` from 50 on. -/
theorem seriesMain_eq (numProcess : Int) (hn : 1 ≤ numProcess) (fuel : Nat) (hf : 51 ≤ fuel)
    (hw : numProcess < (fuel : Int)) :
    ∃ (tr : List Event) (M : Nat), seriesMain numProcess fuel = some tr ∧
      50 ≤ M ∧ (M : Int) < 50 + numProcess ∧ numProcess ∣ (M : Int) ∧
      launches tr = (List.range M).map (fun (k : Nat) => ((k : Int), handedScale k)) ∧
      waitCount tr = M := by
  obtain ⟨n, rfl⟩ : ∃ n : Nat, numProcess = (n : Int) := ⟨numProcess.toNat, by omega⟩
  obtain ⟨f, rfl⟩ : ∃ f : Nat, fuel = f + 1 := ⟨fuel - 1, by omega⟩
  have hn1 : 1 ≤ n := by omega
  have hfuel : 50 ≤ 0 + f * n := by
    have : f * 1 ≤ f * n := Nat.mul_le_mul_left f hn1
    omega
  obtain ⟨st1, M, hrun, hM, hl, hwc⟩ := seriesLoop_eq n (f + 1) (by omega) f 0
    { sVal := Fp.fin 2, trace := [] } hfuel rfl (by simp [launches]) (by simp [waitCount])
  refine ⟨st1.trace, M, ?_, ?_, ?_, ?_, hl, hwc⟩
  · simp only [seriesMain]
    have h0 : ((0 : Nat) : Int) = 0 := rfl
    rw [← h0, hrun]
    rfl
  all_goals
    rcases hM with ⟨h50, -⟩ | ⟨-, h50, hub, t, ht⟩
    · omega
  · exact h50
  · omega
  · exact ⟨(t : Int), by rw [ht]; push_cast; ring⟩

theorem launches_getElem (tr : List Event) (M : Nat)
    (hl : launches tr = (List.range M).map (fun (k : Nat) => ((k : Int), handedScale k)))
    (k : Nat) (hk : k < M) : (launches tr)[k]? = some ((k : Int), handedScale k) := by
  rw [hl, List.getElem?_map, List.getElem?_range hk]
  rfl

/-- The scales handed to the frames 0 to 49 are finite, and each is within 0.000002 of the
exact value `2 - k*(2 - 0.000015)/49`. -/
theorem handedScale_near_exact :
    ∀ k : Nat, k ≤ 49 → handedScale k = Fp.fin (handedNumber k) ∧
      |handedNumber k - (2 - (k : ℚ) * ((2 - 15 / 1000000) / 49))| ≤ 2 / 1000000 := by
  decide!

/-- The scales handed to the frames 0 to 49 decrease, in steps of 0.040816 or 0.040817. -/
theorem handedScale_steps :
    ∀ k : Nat, k < 49 → handedNumber (k + 1) < handedNumber k ∧
      (handedNumber k - handedNumber (k + 1) = 40816 / 1000000 ∨
        handedNumber k - handedNumber (k + 1) = 40817 / 1000000) := by
  decide!

theorem handedScale_ends : handedNumber 0 = 2 ∧ handedNumber 49 = 14 / 1000000 := by
  decide!

/-- C3, evaluated on the code: with the concurrency limit 4 the driver launches 52 children,
with the frame indices 0 to 51, in thirteen batches of 4, each followed by 4 waits: the last
batch is not cut down to the 2 remaining frames, and the frames 50 and 51 are launched. -/
theorem C3_limit_four_launches_52 :
    (seriesMain 4 60).map launchedFrames = some ((List.range 52).map (fun (k : Nat) => (k : Int))) ∧
      (seriesMain 4 60).map batchSizes = some (List.replicate 13 4) ∧
      (seriesMain 4 60).map waitCount = some 52 ∧
      (seriesMain 4 60).map (fun tr => decide (50 ∈ launchedFrames tr)) = some true := by
  set_option maxRecDepth 100000 in decide

/-- C4 fails on the code: `sVal` and `sFactor` are `float` variables and the child receives
the text printed by `"%f"`, six decimals.  Frame 1 is handed 1.959184, which is not
`2 - (2 - 0.000015)/49`; frame 49 is handed 0.000014, not 0.000015; and the steps are not all
equal: from frame 0 to frame 1 the scale drops by 0.040816, from frame 7 to frame 8 by
0.040817. -/
theorem C4_counterexample :
    ∃ (tr : List Event) (s0 s1 s7 s8 s49 : ℚ), seriesMain 1 51 = some tr ∧
      (launches tr)[0]? = some (0, Fp.fin s0) ∧ (launches tr)[1]? = some (1, Fp.fin s1) ∧
      (launches tr)[7]? = some (7, Fp.fin s7) ∧ (launches tr)[8]? = some (8, Fp.fin s8) ∧
      (launches tr)[49]? = some (49, Fp.fin s49) ∧
      s1 = 1959184 / 1000000 ∧ s1 ≠ 2 - 1 * ((2 - 15 / 1000000) / 49) ∧
      s49 = 14 / 1000000 ∧ s49 ≠ 15 / 1000000 ∧
      s0 - s1 = 40816 / 1000000 ∧ s7 - s8 = 40817 / 1000000 ∧ s0 - s1 ≠ s7 - s8 := by
  obtain ⟨tr, M, hrun, hM, -, -, hl, -⟩ := seriesMain_eq 1 (by decide) 51 (by decide) (by decide)
  have hfin : ∀ k : Nat, k ≤ 49 → (launches tr)[k]? = some ((k : Int), Fp.fin (handedNumber k)) := by
    intro k hk
    rw [launches_getElem tr M hl k (by omega), (handedScale_near_exact k hk).1]
  refine ⟨tr, handedNumber 0, handedNumber 1, handedNumber 7, handedNumber 8, handedNumber 49,
    hrun, hfin 0 (by decide), hfin 1 (by decide), hfin 7 (by decide), hfin 8 (by decide),
    hfin 49 (by decide), by decide!, by decide!, by decide!, by decide!, by decide!, by decide!,
    by decide!⟩

/-- C4 as amended: for every concurrency limit `numProcess ≥ 1` the run ends and, for every
`0 ≤ k ≤ 49`, the `k`-th child is frame `k` and is handed a six-decimal value within 0.000002
of `2 - k*(2 - 0.000015)/49`.  Frame 0 gets 2, frame 49 gets 0.000014, the scale handed out is
strictly decreasing in `k`, and each step is 0.040816 or 0.040817. -/
theorem C4_scale_schedule (numProcess : Int) (hn : 1 ≤ numProcess) (fuel : Nat)
    (hf : 51 ≤ fuel) (hw : numProcess < (fuel : Int)) :
    ∃ (tr : List Event) (s : Nat → ℚ), seriesMain numProcess fuel = some tr ∧
      (∀ k : Nat, k ≤ 49 → (launches tr)[k]? = some ((k : Int), Fp.fin (s k)) ∧
        |s k - (2 - (k : ℚ) * ((2 - 15 / 1000000) / 49))| ≤ 2 / 1000000) ∧
      s 0 = 2 ∧ s 49 = 14 / 1000000 ∧
      (∀ k : Nat, k < 49 → s (k + 1) < s k ∧
        (s k - s (k + 1) = 40816 / 1000000 ∨ s k - s (k + 1) = 40817 / 1000000)) := by
  obtain ⟨tr, M, hrun, hM, -, -, hl, -⟩ := seriesMain_eq numProcess hn fuel hf hw
  refine ⟨tr, handedNumber, hrun, ?_, handedScale_ends.1, handedScale_ends.2,
    handedScale_steps⟩
  intro k hk
  obtain ⟨h1, h2⟩ := handedScale_near_exact k hk
  exact ⟨by rw [launches_getElem tr M hl k (by omega), h1], h2⟩

/-- C4 as amended, at the concurrency limit 4 with fuel 60. -/
theorem C4_scale_schedule_witness :
    (1 : Int) ≤ 4 ∧ 51 ≤ 60 ∧ (4 : Int) < ((60 : Nat) : Int) ∧
    ∃ (tr : List Event) (s : Nat → ℚ), seriesMain 4 60 = some tr ∧
      (∀ k : Nat, k ≤ 49 → (launches tr)[k]? = some ((k : Int), Fp.fin (s k)) ∧
        |s k - (2 - (k : ℚ) * ((2 - 15 / 1000000) / 49))| ≤ 2 / 1000000) ∧
      s 0 = 2 ∧ s 49 = 14 / 1000000 ∧
      (∀ k : Nat, k < 49 → s (k + 1) < s k ∧
        (s k - s (k + 1) = 40816 / 1000000 ∨ s k - s (k + 1) = 40817 / 1000000)) :=
  ⟨by decide, by decide, by decide, C4_scale_schedule 4 (by decide) 60 (by decide) (by decide)⟩

end Mandel
